import Mathlib

/-!
Shallow embedding of `src/src/linkedlist.c` from libdstructs.

The C code manipulates heap-allocated nodes through raw pointers.  We model
the node heap explicitly as a function from pointer values (`Nat`) to
optionally-allocated nodes; `free` stores `none`.  Dereferencing a pointer
that is `NULL` or not allocated is undefined behavior in C; every modelled
operation therefore returns an `Option`, with `none` meaning that the C
program's behavior is undefined on that input.  Elements (`void*` payloads)
are modelled by their byte contents (`List Nat`), which is what
`memcmp`-based search inspects; `element_size` tells how many leading bytes
participate in a comparison.  Loops in the C source walk `next` pointers;
we give each loop a fuel argument, and every operation passes the
allocation counter as fuel, which is enough for any acyclic chain (every
allocated pointer is below the counter).  Running out of fuel (a cyclic
chain, impossible for well-formed lists) also yields `none`.

The `prev` field of `__node_s` is declared in the C source but never
assigned or read, so it is omitted from the model.
-/

/-- Bytes of a caller-owned payload, as inspected by `memcmp`. -/
abbrev Elem := List Nat

/-- Model of `struct __node_s` (the unused `prev` field is omitted). -/
structure Node where
  element : Elem
  index : Int
  next : Option Nat
deriving Repr, DecidableEq

/-- The node heap: allocation state of every pointer value. -/
abbrev Heap := Nat → Option Node

/-- Heap update (both for writing a node and for `free`, which stores `none`). -/
def hupd (h : Heap) (p : Nat) (v : Option Node) : Heap :=
  fun q => if q = p then v else h q

/-- Model of `struct __llist_s`: first/last node pointers and `__elem_size`. -/
structure LL where
  first : Option Nat
  last : Option Nat
  elemSize : Nat
deriving Repr, DecidableEq

/-- Model of `struct __ll_iter_s`: the `__next` cursor pointer. -/
structure Itr where
  next : Option Nat
deriving Repr, DecidableEq

/-- Whole program state: the node heap, the allocation counter (all pointers
ever handed out are below it), and the list pointer (`none` models calling
an operation with a `NULL` list). -/
structure St where
  heap : Heap
  fresh : Nat
  lst : Option LL

/-- Model of `__ll_init`: a freshly created empty list (node allocation is
assumed to succeed throughout the model). -/
def ll_init (elemSize : Nat) : St :=
  { heap := fun _ => none, fresh := 0,
    lst := some { first := none, last := none, elemSize := elemSize } }

/-- Model of `ll_size`: reads `list->__last` and returns its cached index
plus one, `0` for an empty list, `-1` for a `NULL` list.  Dereferencing a
dangling `__last` pointer is undefined behavior (`none`). -/
def ll_size (s : St) : Option Int :=
  match s.lst with
  | none => some (-1)
  | some l =>
    match l.last with
    | none => some 0
    | some p =>
      match s.heap p with
      | none => none
      | some nd => some (nd.index + 1)

/-- Model of `memcmp(e, d, n) == 0`: the first `n` bytes agree. -/
def memcmp0 (e d : Elem) (n : Nat) : Bool :=
  e.take n == d.take n

/-- The element-retrieval loop of `ll_get`: walk the chain until a node
whose cached `index` equals the requested one is found. -/
def getLoop (i : Int) : Nat → Heap → Option Nat → Option (Option Elem)
  | _, _, none => some none
  | 0, _, some _ => none
  | fuel+1, h, some p =>
    match h p with
    | none => none
    | some nd =>
      if nd.index = i then some (some nd.element)
      else getLoop i fuel h nd.next

/-- Model of `ll_get`.  The returned `void*` is `Option Elem`
(`none` = `NULL`); the outer `Option` is definedness. -/
def ll_get (s : St) (i : Int) : Option (Option Elem) :=
  match s.lst with
  | none => some none
  | some l =>
    if i < 0 then some none
    else
      match ll_size s with
      | none => none
      | some n =>
        if n ≤ i then some none
        else getLoop i s.fresh s.heap l.first

/-- Model of `ll_first`: `ll_get(list, 0)`. -/
def ll_first (s : St) : Option (Option Elem) :=
  ll_get s 0

/-- Model of `ll_last`: `ll_get(list, ll_size(list) - 1)`. -/
def ll_last (s : St) : Option (Option Elem) :=
  match ll_size s with
  | none => none
  | some n => ll_get s (n - 1)

/-- The search loop of `ll_contains`. -/
def containsLoop (e : Elem) (nb : Nat) : Nat → Heap → Option Nat → Option Int
  | _, _, none => some 0
  | 0, _, some _ => none
  | fuel+1, h, some p =>
    match h p with
    | none => none
    | some nd =>
      if memcmp0 e nd.element nb then some 1
      else containsLoop e nb fuel h nd.next

/-- Model of `ll_contains`. -/
def ll_contains (s : St) (e : Elem) : Option Int :=
  match s.lst with
  | none => some 0
  | some l => containsLoop e l.elemSize s.fresh s.heap l.first

/-- The search loop of `ll_indexof`: returns the cached index of the first
byte-equal node, `-1` when the walk falls off the end. -/
def indexofLoop (e : Elem) (nb : Nat) : Nat → Heap → Option Nat → Option Int
  | _, _, none => some (-1)
  | 0, _, some _ => none
  | fuel+1, h, some p =>
    match h p with
    | none => none
    | some nd =>
      if memcmp0 e nd.element nb then some nd.index
      else indexofLoop e nb fuel h nd.next

/-- Model of `ll_indexof`. -/
def ll_indexof (s : St) (e : Elem) : Option Int :=
  match s.lst with
  | none => some (-1)
  | some l => indexofLoop e l.elemSize s.fresh s.heap l.first

/-- The middle-insertion loop of `ll_add`: starting from `cur`, walk while
`cur->next` exists; when `cur->next->index == i`, set `new->next = cur->next`
and `cur->next = new`.  Falling off the end leaves the heap unchanged
(the C loop just exits and `ll_add` still reports success). -/
def addLoop (newP : Nat) (i : Int) : Nat → Heap → Nat → Option Heap
  | 0, _, _ => none
  | fuel+1, h, cur =>
    match h cur with
    | none => none
    | some nd =>
      match nd.next with
      | none => some h
      | some q =>
        match h q with
        | none => none
        | some qnd =>
          if qnd.index = i then
            match h newP with
            | none => none
            | some newNd =>
              some (hupd (hupd h newP (some { newNd with next := some q }))
                    cur (some { nd with next := some newP }))
          else addLoop newP i fuel h q

/-- The re-indexing loop shared by `ll_add` (delta `+1`) and `ll_remove`
(delta `-1`): walk from a node pointer to the end of the chain, adding
`d` to every cached index. -/
def bumpLoop (d : Int) : Nat → Heap → Option Nat → Option Heap
  | _, h, none => some h
  | 0, _, some _ => none
  | fuel+1, h, some p =>
    match h p with
    | none => none
    | some nd => bumpLoop d fuel (hupd h p (some { nd with index := nd.index + d })) nd.next

/-- Model of `ll_add`.  Returns the updated state together with the C return
value (`1` = `ADDED`, `0` = failure).  Mirrors the C control flow: `NULL`
check, bound check (`index < 0` short-circuits before `ll_size` is called),
node allocation at the next fresh pointer, then the empty / append / front /
middle cases followed by the index-increment sweep. -/
def ll_add (s : St) (i : Int) (e : Elem) : Option (St × Int) :=
  match s.lst with
  | none => some (s, 0)
  | some l =>
    if i < 0 then some (s, 0)
    else
      match ll_size s with
      | none => none
      | some n =>
        if n < i then some (s, 0)
        else
          let newP := s.fresh
          let st1 : St := { heap := hupd s.heap newP (some { element := e, index := i, next := none }),
                            fresh := s.fresh + 1, lst := some l }
          match ll_size st1 with
          | none => none
          | some n1 =>
            if n1 = 0 then
              some ({ st1 with lst := some { l with first := some newP, last := some newP } }, 1)
            else if i = n1 then
              match l.last with
              | none => none
              | some lp =>
                match st1.heap lp with
                | none => none
                | some lnd =>
                  let h2 := hupd st1.heap lp (some { lnd with next := some newP })
                  some ({ st1 with heap := h2, lst := some { l with last := some newP } }, 1)
            else
              if i = 0 then
                let h2 := hupd st1.heap newP (some { element := e, index := i, next := l.first })
                match h2 newP with
                | none => none
                | some newNd =>
                  match bumpLoop 1 st1.fresh h2 newNd.next with
                  | none => none
                  | some h3 =>
                    some ({ st1 with heap := h3, lst := some { l with first := some newP } }, 1)
              else
                match l.first with
                | none => none
                | some fp =>
                  match addLoop newP i st1.fresh st1.heap fp with
                  | none => none
                  | some h2 =>
                    match h2 newP with
                    | none => none
                    | some newNd =>
                      match bumpLoop 1 st1.fresh h2 newNd.next with
                      | none => none
                      | some h3 => some ({ st1 with heap := h3 }, 1)

/-- Model of `ll_addfirst`: `ll_add(list, 0, element)` (return value dropped). -/
def ll_addfirst (s : St) (e : Elem) : Option St :=
  match ll_add s 0 e with
  | none => none
  | some (s', _) => some s'

/-- Model of `ll_addlast`: `ll_add(list, ll_size(list), element)`. -/
def ll_addlast (s : St) (e : Elem) : Option St :=
  match ll_size s with
  | none => none
  | some n =>
    match ll_add s n e with
    | none => none
    | some (s', _) => some s'

/-- The predecessor-walk of `ll_remove`'s non-front branch: find the node
`cur` with `cur->next->index == i`, splice (`cur->next = target->next`) and
return the updated heap together with the target pointer.  If the walk falls
off the end, the C code goes on to read the uninitialized local `target`,
which is undefined behavior (`none`). -/
def removeLoop (i : Int) : Nat → Heap → Nat → Option (Heap × Nat)
  | 0, _, _ => none
  | fuel+1, h, cur =>
    match h cur with
    | none => none
    | some nd =>
      match nd.next with
      | none => none
      | some q =>
        match h q with
        | none => none
        | some qnd =>
          if qnd.index = i then some (hupd h cur (some { nd with next := qnd.next }), q)
          else removeLoop i fuel h q

/-- Model of `ll_remove`.  Returns the updated state and the removed element
pointer.  Mirrors the C control flow: `NULL` check, bound check, the (dead)
empty-list check, the front branch (which also nulls `__last` when the list
becomes empty), the predecessor-walk branch (which, like the C source,
leaves `list->__last` untouched), the index-decrement sweep, and the `free`
of the target node. -/
def ll_remove (s : St) (i : Int) : Option (St × Option Elem) :=
  match s.lst with
  | none => some (s, none)
  | some l =>
    if i < 0 then some (s, none)
    else
      match ll_size s with
      | none => none
      | some n =>
        if n ≤ i then some (s, none)
        else if n = 0 then some (s, none)
        else if i = 0 then
          match l.first with
          | none => none
          | some fp =>
            match s.heap fp with
            | none => none
            | some fnd =>
              let l' : LL := { l with first := fnd.next, last := if fnd.next = none then none else l.last }
              match bumpLoop (-1) s.fresh s.heap fnd.next with
              | none => none
              | some h' =>
                some ({ s with heap := hupd h' fp none, lst := some l' }, some fnd.element)
        else
          match l.first with
          | none => none
          | some fp =>
            match removeLoop i s.fresh s.heap fp with
            | none => none
            | some (h1, tp) =>
              match h1 tp with
              | none => none
              | some tnd =>
                match bumpLoop (-1) s.fresh h1 tnd.next with
                | none => none
                | some h2 =>
                  some ({ s with heap := hupd h2 tp none }, some tnd.element)

/-- The replacement loop of `ll_set`: find the node with the requested
cached index, overwrite its element slot, return the former element. -/
def setLoop (i : Int) (e : Elem) : Nat → Heap → Option Nat → Option (Heap × Option Elem)
  | _, h, none => some (h, none)
  | 0, _, some _ => none
  | fuel+1, h, some p =>
    match h p with
    | none => none
    | some nd =>
      if nd.index = i then some (hupd h p (some { nd with element := e }), some nd.element)
      else setLoop i e fuel h nd.next

/-- Model of `ll_set`: returns the updated state and the previously stored
element pointer. -/
def ll_set (s : St) (i : Int) (e : Elem) : Option (St × Option Elem) :=
  match s.lst with
  | none => some (s, none)
  | some l =>
    if i < 0 then some (s, none)
    else
      match ll_size s with
      | none => none
      | some n =>
        if n ≤ i then some (s, none)
        else
          match setLoop i e s.fresh s.heap l.first with
          | none => none
          | some (h', former) => some ({ s with heap := h' }, former)

/-- The clearing loop of `ll_clear`: while `ll_size(list) != 0`, remove the
first element (the removed payload is freed by the caller-side `free` in the
C source, which does not touch list state). -/
def clearLoop : Nat → St → Option St
  | fuel, s =>
    match ll_size s with
    | none => none
    | some n =>
      if n = 0 then some s
      else
        match fuel with
        | 0 => none
        | fuel+1 =>
          match ll_remove s 0 with
          | none => none
          | some (s', _) => clearLoop fuel s'

/-- Model of `ll_clear`. -/
def ll_clear (s : St) : Option St :=
  match s.lst with
  | none => some s
  | some _ => clearLoop s.fresh s

/-- The positioning loop of `ll_itr`: find the node with the requested
cached index and let the new iterator's `__next` reference it. -/
def itrLoop (i : Int) : Nat → Heap → Option Nat → Option (Option Itr)
  | _, _, none => some none
  | 0, _, some _ => none
  | fuel+1, h, some p =>
    match h p with
    | none => none
    | some nd =>
      if nd.index = i then some (some { next := some p })
      else itrLoop i fuel h nd.next

/-- Model of `ll_itr` (iterator creation; cursor allocation is assumed to
succeed). -/
def ll_itr (s : St) (i : Int) : Option (Option Itr) :=
  match s.lst with
  | none => some none
  | some l =>
    if i < 0 then some none
    else
      match ll_size s with
      | none => none
      | some n =>
        if n ≤ i then some none
        else itrLoop i s.fresh s.heap l.first

/-- Model of `li_hasnext`: after the `NULL`-iterator check it reads
`temp = iterator->__next` and immediately dereferences `temp->next`.
When the cursor is exhausted (`temp == NULL`) or dangling, that dereference
is undefined behavior (`none`). -/
def li_hasnext (s : St) (it : Option Itr) : Option Int :=
  match it with
  | none => some 0
  | some itr =>
    match itr.next with
    | none => none
    | some p =>
      match s.heap p with
      | none => none
      | some nd => some (if nd.next.isSome then 1 else 0)

/-- Model of `li_next`: returns the advanced iterator and the yielded
element pointer (`none` = `NULL`, for a `NULL` or exhausted iterator). -/
def li_next (s : St) (it : Option Itr) : Option (Option Itr × Option Elem) :=
  match it with
  | none => some (none, none)
  | some itr =>
    match itr.next with
    | none => some (some itr, none)
    | some p =>
      match s.heap p with
      | none => none
      | some nd => some (some { next := nd.next }, some nd.element)

/-! ## Chain well-formedness -/

/-- Lookup after update at the same pointer. -/
theorem hupd_self (h : Heap) (p : Nat) (v : Option Node) : hupd h p v p = v := by
  simp [hupd]

/-- Lookup after update at a different pointer. -/
theorem hupd_other (h : Heap) (p : Nat) (v : Option Node) {q : Nat} (hq : q ≠ p) :
    hupd h p v q = h q := by
  simp [hupd, hq]

/-- `Seg h a c b` means: starting from the pointer-option `a` and repeatedly
following `next`, the heap `h` presents exactly the (pointer, node) pairs
`c`, ending at the pointer-option `b`. -/
inductive Seg (h : Heap) : Option Nat → List (Nat × Node) → Option Nat → Prop
  | nil (a : Option Nat) : Seg h a [] a
  | cons {p : Nat} {nd : Node} {c : List (Nat × Node)} {b : Option Nat} :
      h p = some nd → Seg h nd.next c b → Seg h (some p) ((p, nd) :: c) b

/-- The pointers of a chain, in traversal order. -/
def ptrs (c : List (Nat × Node)) : List Nat := c.map Prod.fst

/-- The stored elements of a chain, in traversal order. -/
def absL (c : List (Nat × Node)) : List Elem := c.map (fun x => x.2.element)

/-- The cached indices along `c` are `b, b+1, b+2, ...` in traversal order. -/
def idxFrom : Int → List (Nat × Node) → Prop
  | _, [] => True
  | b, x :: c => x.2.index = b ∧ idxFrom (b + 1) c

/-- Last element of a pointer list, mirroring where `__last` must point. -/
def lastPtrOf : List Nat → Option Nat
  | [] => none
  | [p] => some p
  | _ :: q :: c => lastPtrOf (q :: c)

/-- Add `d` to every cached index of a chain (the effect of the re-index sweep). -/
def bump (d : Int) (c : List (Nat × Node)) : List (Nat × Node) :=
  c.map (fun x => (x.1, { x.2 with index := x.2.index + d }))

/-- Well-formedness of a list state, with `c` the chain of nodes: the state's
list pointer is live, the nodes form a `next`-linked chain from `first`
ending in `NULL`, cached indices are exactly `0..size-1` in traversal order,
`__last` references the final chain node (`NULL` when empty), and every
chain pointer is below the allocation counter. -/
structure Wf (s : St) (l : LL) (c : List (Nat × Node)) : Prop where
  lst : s.lst = some l
  chain : Seg s.heap l.first c none
  idx : idxFrom 0 c
  lastPtr : l.last = lastPtrOf (ptrs c)
  bound : ∀ p ∈ ptrs c, p < s.fresh

/-- A state whose list has a `__last` pointer referencing unallocated memory;
this contradicts the chain invariant (see `Wf.not_corrupt`). -/
def Corrupt (s : St) : Prop :=
  ∃ l p, s.lst = some l ∧ l.last = some p ∧ s.heap p = none

/-- No chain can witness well-formedness of the state. -/
def NoWf (s : St) : Prop :=
  ∀ l c, Wf s l c → False

theorem Seg.eq_of_nil {h : Heap} {a b : Option Nat} (hs : Seg h a [] b) : a = b := by
  cases hs; rfl

theorem Seg.cons_inv {h : Heap} {a b : Option Nat} {x : Nat × Node} {c : List (Nat × Node)}
    (hs : Seg h a (x :: c) b) : a = some x.1 ∧ h x.1 = some x.2 ∧ Seg h x.2.next c b := by
  rcases x with ⟨p, nd⟩
  cases hs with
  | cons hp htl => exact ⟨rfl, hp, htl⟩

theorem Seg.mem {h : Heap} {a b : Option Nat} {c : List (Nat × Node)} (hs : Seg h a c b)
    {p : Nat} {nd : Node} (hm : (p, nd) ∈ c) : h p = some nd := by
  induction hs with
  | nil => cases hm
  | cons hp _ ih =>
    rcases List.mem_cons.1 hm with h1 | h2
    · cases h1; exact hp
    · exact ih h2

theorem Seg.append {h : Heap} {a b d : Option Nat} {c₁ c₂ : List (Nat × Node)}
    (h1 : Seg h a c₁ b) (h2 : Seg h b c₂ d) : Seg h a (c₁ ++ c₂) d := by
  induction h1 with
  | nil => exact h2
  | cons hp _ ih => exact Seg.cons hp (ih h2)

theorem Seg.split {h : Heap} {a d : Option Nat} {c₁ c₂ : List (Nat × Node)}
    (hs : Seg h a (c₁ ++ c₂) d) : ∃ b, Seg h a c₁ b ∧ Seg h b c₂ d := by
  induction c₁ generalizing a with
  | nil => exact ⟨a, Seg.nil a, hs⟩
  | cons x c₁ ih =>
    cases hs with
    | cons hp htl =>
      rcases ih htl with ⟨b, hb1, hb2⟩
      exact ⟨b, Seg.cons hp hb1, hb2⟩

theorem Seg.heap_congr {h h' : Heap} {a b : Option Nat} {c : List (Nat × Node)}
    (hs : Seg h a c b) (hagree : ∀ q ∈ ptrs c, h' q = h q) : Seg h' a c b := by
  induction hs with
  | nil => exact Seg.nil _
  | cons hp htl ih =>
    refine Seg.cons ?_ (ih ?_)
    · rw [hagree _ (by simp [ptrs])]; exact hp
    · intro q hq; exact hagree q (by simp [ptrs] at hq ⊢; exact Or.inr hq)

theorem Seg.frame {h : Heap} {a b : Option Nat} {c : List (Nat × Node)}
    (hs : Seg h a c b) {p : Nat} (hp : p ∉ ptrs c) (v : Option Node) :
    Seg (hupd h p v) a c b :=
  hs.heap_congr (fun _ hq => hupd_other h p v (fun e => hp (e ▸ hq)))

theorem idxFrom_cons {b : Int} {x : Nat × Node} {c : List (Nat × Node)} :
    idxFrom b (x :: c) ↔ x.2.index = b ∧ idxFrom (b + 1) c := Iff.rfl

theorem idxFrom_append {b : Int} {c₁ c₂ : List (Nat × Node)} :
    idxFrom b (c₁ ++ c₂) ↔ idxFrom b c₁ ∧ idxFrom (b + c₁.length) c₂ := by
  induction c₁ generalizing b with
  | nil => simp [idxFrom]
  | cons x c₁ ih =>
    simp only [List.cons_append, idxFrom_cons, ih, List.length_cons]
    constructor
    · rintro ⟨h1, h2, h3⟩
      refine ⟨⟨h1, h2⟩, ?_⟩
      have : b + 1 + (c₁.length : Int) = b + ((c₁.length : Int) + 1) := by ring
      rwa [this] at h3
    · rintro ⟨⟨h1, h2⟩, h3⟩
      refine ⟨h1, h2, ?_⟩
      have : b + 1 + (c₁.length : Int) = b + ((c₁.length : Int) + 1) := by ring
      rwa [this]

theorem idxFrom_mem_lb {b : Int} {c : List (Nat × Node)} (hi : idxFrom b c)
    {x : Nat × Node} (hm : x ∈ c) : b ≤ x.2.index := by
  induction c generalizing b with
  | nil => cases hm
  | cons y c ih =>
    rcases List.mem_cons.1 hm with h1 | h2
    · subst h1; exact le_of_eq hi.1.symm
    · exact le_trans (by omega) (ih hi.2 h2)

theorem idxFrom_mem_ub {b : Int} {c : List (Nat × Node)} (hi : idxFrom b c)
    {x : Nat × Node} (hm : x ∈ c) : x.2.index < b + c.length := by
  induction c generalizing b with
  | nil => cases hm
  | cons y c ih =>
    rcases List.mem_cons.1 hm with h1 | h2
    · subst h1
      have := hi.1
      simp only [List.length_cons]
      push_cast
      omega
    · have := ih hi.2 h2
      simp only [List.length_cons]
      push_cast at this ⊢
      omega

theorem idxFrom_bump {b d : Int} {c : List (Nat × Node)} (hi : idxFrom b c) :
    idxFrom (b + d) (bump d c) := by
  induction c generalizing b with
  | nil => trivial
  | cons x c ih =>
    refine ⟨?_, ?_⟩
    · simp only [bump, List.map_cons]
      rw [hi.1]
    · have := ih hi.2
      have e : b + 1 + d = b + d + 1 := by ring
      rw [e] at this
      exact this

theorem ptrs_bump (d : Int) (c : List (Nat × Node)) : ptrs (bump d c) = ptrs c := by
  simp [ptrs, bump]

theorem absL_bump (d : Int) (c : List (Nat × Node)) : absL (bump d c) = absL c := by
  simp [absL, bump]

/-- Membership in the pointer list of a chain. -/
theorem mem_ptrs {p : Nat} {c : List (Nat × Node)} : p ∈ ptrs c ↔ ∃ nd, (p, nd) ∈ c := by
  constructor
  · intro hp
    rcases List.mem_map.1 hp with ⟨x, hx, he⟩
    rcases x with ⟨a, b⟩
    cases he
    exact ⟨b, hx⟩
  · rintro ⟨nd, hm⟩
    exact List.mem_map.2 ⟨(p, nd), hm, rfl⟩

/-- Chains with a progression of cached indices have pairwise distinct pointers. -/
theorem Seg.nodup {h : Heap} {a b : Option Nat} {c : List (Nat × Node)}
    (hs : Seg h a c b) {i : Int} (hi : idxFrom i c) : (ptrs c).Nodup := by
  induction hs generalizing i with
  | nil => exact List.nodup_nil
  | cons hp htl ih =>
    refine List.nodup_cons.2 ⟨?_, ih hi.2⟩
    intro hmem
    rcases mem_ptrs.1 hmem with ⟨nd', hqc⟩
    have h1 := htl.mem hqc
    rw [hp] at h1
    cases h1
    have h2 := idxFrom_mem_lb hi.2 hqc
    have h3 := hi.1
    simp only at h2 h3
    omega

theorem lastPtrOf_cons_cons (p q : Nat) (c : List Nat) :
    lastPtrOf (p :: q :: c) = lastPtrOf (q :: c) := rfl

theorem lastPtrOf_append {c₁ c₂ : List Nat} (hne : c₂ ≠ []) :
    lastPtrOf (c₁ ++ c₂) = lastPtrOf c₂ := by
  induction c₁ with
  | nil => rfl
  | cons a c₁ ih =>
    rcases List.exists_cons_of_ne_nil (fun he : c₁ ++ c₂ = [] => by
      rcases List.append_eq_nil.1 he with ⟨_, h2⟩; exact hne h2) with ⟨b, tl, hbtl⟩
    rw [List.cons_append, hbtl, lastPtrOf_cons_cons, ← hbtl, ih]

theorem lastPtrOf_concat (c : List Nat) (p : Nat) : lastPtrOf (c ++ [p]) = some p := by
  rw [lastPtrOf_append (by simp)]
  rfl

theorem ptrs_append (c₁ c₂ : List (Nat × Node)) : ptrs (c₁ ++ c₂) = ptrs c₁ ++ ptrs c₂ := by
  simp [ptrs]

theorem absL_append (c₁ c₂ : List (Nat × Node)) : absL (c₁ ++ c₂) = absL c₁ ++ absL c₂ := by
  simp [absL]

theorem Wf.chainNodup {s : St} {l : LL} {c : List (Nat × Node)} (w : Wf s l c) :
    (ptrs c).Nodup :=
  w.chain.nodup w.idx

theorem Wf.length_le_fresh {s : St} {l : LL} {c : List (Nat × Node)} (w : Wf s l c) :
    c.length ≤ s.fresh := by
  have h1 : List.Subperm (ptrs c) (List.range s.fresh) :=
    w.chainNodup.subperm (fun p hp => List.mem_range.2 (w.bound p hp))
  have h2 := h1.length_le
  simpa [ptrs, List.length_range] using h2

/-- On a well-formed state `ll_size` reports the chain length. -/
theorem ll_size_wf {s : St} {l : LL} {c : List (Nat × Node)} (w : Wf s l c) :
    ll_size s = some (c.length : Int) := by
  rcases c.eq_nil_or_concat' with hc | ⟨c₀, x, hc⟩
  · subst hc
    have hl : l.last = none := by simpa [lastPtrOf, ptrs] using w.lastPtr
    simp [ll_size, w.lst, hl]
  · subst hc
    have hl : l.last = some x.1 := by
      rw [w.lastPtr, ptrs_append]
      simpa [ptrs] using lastPtrOf_concat (ptrs c₀) x.1
    have hx : s.heap x.1 = some x.2 := w.chain.mem (by simp)
    have hidx : x.2.index = (c₀.length : Int) := by
      have := (idxFrom_append.1 w.idx).2
      simpa [idxFrom] using this.1
    simp only [ll_size, w.lst, hl, hx, hidx, List.length_append, List.length_cons,
      List.length_nil]
    push_cast
    ring_nf

/-- A well-formed state is not corrupt: `__last` never dangles. -/
theorem Wf.not_corrupt {s : St} {l : LL} {c : List (Nat × Node)} (w : Wf s l c) :
    ¬ Corrupt s := by
  rintro ⟨l', p, hl', hlast, hdead⟩
  rw [w.lst] at hl'
  cases hl'
  rcases c.eq_nil_or_concat' with hc | ⟨c₀, x, hc⟩
  · subst hc
    rw [w.lastPtr] at hlast
    simp [lastPtrOf, ptrs] at hlast
  · subst hc
    rw [w.lastPtr, ptrs_append] at hlast
    have he : lastPtrOf (ptrs c₀ ++ ptrs [x]) = some x.1 := by
      simpa [ptrs] using lastPtrOf_concat (ptrs c₀) x.1
    rw [he] at hlast
    cases hlast
    have hm : s.heap x.1 = some x.2 := w.chain.mem (by simp)
    rw [hdead] at hm
    cases hm

/-! ## Loop correctness over well-formed chains -/

theorem ptrs_cons (x : Nat × Node) (c : List (Nat × Node)) :
    ptrs (x :: c) = x.1 :: ptrs c := rfl

/-- The `ll_get` walk finds the node at traversal position `c₁.length`. -/
theorem getLoop_found {h : Heap} {i : Int} :
    ∀ (c₁ : List (Nat × Node)) (b : Int) (p : Nat) (nd : Node) (c₂ : List (Nat × Node))
      (a : Option Nat) (fuel : Nat),
    Seg h a (c₁ ++ (p, nd) :: c₂) none →
    idxFrom b (c₁ ++ (p, nd) :: c₂) →
    (c₁ ++ (p, nd) :: c₂).length ≤ fuel →
    i = b + c₁.length →
    getLoop i fuel h a = some (some nd.element) := by
  intro c₁
  induction c₁ with
  | nil =>
    intro b p nd c₂ a fuel hs hidx hfuel hi
    cases hs with
    | cons hp htl =>
      cases fuel with
      | zero => simp at hfuel
      | succ f =>
        have hb : nd.index = b := hidx.1
        have hieq : i = b := by simpa using hi
        simp [getLoop, hp, hb, hieq]
  | cons x c₁ ih =>
    intro b p nd c₂ a fuel hs hidx hfuel hi
    rcases x with ⟨xp, xnd⟩
    cases hs with
    | cons hp htl =>
      cases fuel with
      | zero => simp at hfuel
      | succ f =>
        have hb : xnd.index = b := hidx.1
        have hne : ¬ xnd.index = i := by
          rw [hb, hi]
          simp only [List.length_cons]
          push_cast
          omega
        simp only [getLoop, hp]
        rw [if_neg hne]
        refine ih (b + 1) p nd c₂ xnd.next f htl hidx.2 (by simp at hfuel ⊢; omega) ?_
        rw [hi]
        simp only [List.length_cons]
        push_cast
        ring

/-- The `ll_set` walk replaces exactly the element slot of the node at
traversal position `c₁.length`, returning the former element, and the chain
shape is preserved. -/
theorem setLoop_found {h : Heap} {i : Int} {e : Elem} :
    ∀ (c₁ : List (Nat × Node)) (b : Int) (p : Nat) (nd : Node) (c₂ : List (Nat × Node))
      (a : Option Nat) (fuel : Nat),
    Seg h a (c₁ ++ (p, nd) :: c₂) none →
    idxFrom b (c₁ ++ (p, nd) :: c₂) →
    (ptrs (c₁ ++ (p, nd) :: c₂)).Nodup →
    (c₁ ++ (p, nd) :: c₂).length ≤ fuel →
    i = b + c₁.length →
    setLoop i e fuel h a = some (hupd h p (some { nd with element := e }), some nd.element) ∧
    Seg (hupd h p (some { nd with element := e })) a
      (c₁ ++ (p, { nd with element := e }) :: c₂) none := by
  intro c₁
  induction c₁ with
  | nil =>
    intro b p nd c₂ a fuel hs hidx hnodup hfuel hi
    cases hs with
    | cons hp htl =>
      cases fuel with
      | zero => simp at hfuel
      | succ f =>
        have hb : nd.index = b := hidx.1
        have hpc : p ∉ ptrs c₂ := by
          rw [List.nil_append, ptrs_cons] at hnodup
          exact (List.nodup_cons.1 hnodup).1
        have hieq : i = b := by simpa using hi
        constructor
        · simp [setLoop, hp, hb, hieq]
        · exact Seg.cons (hupd_self _ _ _) (htl.frame hpc _)
  | cons x c₁ ih =>
    intro b p nd c₂ a fuel hs hidx hnodup hfuel hi
    rcases x with ⟨xp, xnd⟩
    cases hs with
    | cons hp htl =>
      cases fuel with
      | zero => simp at hfuel
      | succ f =>
        have hb : xnd.index = b := hidx.1
        have hne : ¬ xnd.index = i := by
          rw [hb, hi]
          simp only [List.length_cons]
          push_cast
          omega
        rw [List.cons_append, ptrs_cons] at hnodup
        have hnd2 := List.nodup_cons.1 hnodup
        have hxp : xp ≠ p := by
          intro he
          exact hnd2.1 (he ▸ mem_ptrs.2 ⟨nd, by simp⟩)
        have hrec := ih (b + 1) p nd c₂ xnd.next f htl hidx.2 hnd2.2
          (by simp at hfuel ⊢; omega)
          (by rw [hi]; simp only [List.length_cons]; push_cast; ring)
        constructor
        · simp only [setLoop, hp]
          rw [if_neg hne]
          exact hrec.1
        · refine Seg.cons ?_ hrec.2
          rw [hupd_other _ _ _ hxp]
          exact hp

theorem idxFrom_replace {b : Int} {c₁ c₂ : List (Nat × Node)} {p : Nat} {nd nd' : Node}
    (hidx : idxFrom b (c₁ ++ (p, nd) :: c₂)) (he : nd'.index = nd.index) :
    idxFrom b (c₁ ++ (p, nd') :: c₂) := by
  rcases idxFrom_append.1 hidx with ⟨h1, h2⟩
  exact idxFrom_append.2 ⟨h1, ⟨by rw [he]; exact h2.1, h2.2⟩⟩

/-- On a well-formed state, `ll_get` at traversal position `c₁.length`
returns the element of the node there. -/
theorem ll_get_wf {s : St} {l : LL} {c c₁ c₂ : List (Nat × Node)} {p : Nat} {nd : Node}
    (w : Wf s l c) (hc : c = c₁ ++ (p, nd) :: c₂) :
    ll_get s (c₁.length : Int) = some (some nd.element) := by
  subst hc
  have hsz := ll_size_wf w
  simp only [ll_get, w.lst, hsz]
  rw [if_neg (by omega)]
  rw [if_neg (by simp only [List.length_append, List.length_cons]; push_cast; omega)]
  exact getLoop_found c₁ 0 p nd c₂ l.first s.fresh w.chain w.idx
    w.length_le_fresh (by simp)

/-- On a well-formed state, `ll_set` at traversal position `c₁.length`
overwrites exactly that node's element slot, returns the former element, and
the resulting state is well-formed with only that element changed. -/
theorem ll_set_wf {s : St} {l : LL} {c c₁ c₂ : List (Nat × Node)} {p : Nat} {nd : Node}
    (w : Wf s l c) (hc : c = c₁ ++ (p, nd) :: c₂) (e : Elem) :
    ll_set s (c₁.length : Int) e =
      some ({ s with heap := hupd s.heap p (some { nd with element := e }) }, some nd.element) ∧
    Wf { s with heap := hupd s.heap p (some { nd with element := e }) } l
      (c₁ ++ (p, { nd with element := e }) :: c₂) := by
  subst hc
  have hsz := ll_size_wf w
  have hloop := @setLoop_found s.heap (c₁.length : Int) e c₁ 0 p nd c₂ l.first s.fresh
    w.chain w.idx w.chainNodup w.length_le_fresh (by simp)
  constructor
  · simp only [ll_set, w.lst, hsz]
    rw [if_neg (by omega)]
    rw [if_neg (by simp only [List.length_append, List.length_cons]; push_cast; omega)]
    rw [hloop.1]
  · refine ⟨by simpa using w.lst, hloop.2, idxFrom_replace w.idx rfl, ?_, ?_⟩
    · have : ptrs (c₁ ++ (p, { nd with element := e }) :: c₂) =
          ptrs (c₁ ++ (p, nd) :: c₂) := by simp [ptrs]
      rw [this]
      exact w.lastPtr
    · intro q hq
      refine w.bound q ?_
      simpa [ptrs] using hq

theorem absL_cons (x : Nat × Node) (c : List (Nat × Node)) :
    absL (x :: c) = x.2.element :: absL c := rfl

/-- First index (counting from `b`) of a byte-equal element, `-1` if none:
the abstract meaning of the `ll_indexof` scan. -/
def firstMatch (e : Elem) (nb : Nat) : Int → List Elem → Int
  | _, [] => -1
  | b, d :: ds => if memcmp0 e d nb then b else firstMatch e nb (b + 1) ds

theorem containsLoop_ok {e : Elem} {nb : Nat} {h : Heap} :
    ∀ (c : List (Nat × Node)) (a : Option Nat) (fuel : Nat),
    Seg h a c none → c.length ≤ fuel →
    containsLoop e nb fuel h a =
      some (if (absL c).any (fun d => memcmp0 e d nb) then 1 else 0) := by
  intro c
  induction c with
  | nil =>
    intro a fuel hs _
    rw [hs.eq_of_nil]
    cases fuel <;> simp [containsLoop, absL]
  | cons x c ih =>
    intro a fuel hs hfuel
    rcases x with ⟨xp, xnd⟩
    cases hs with
    | cons hp htl =>
      cases fuel with
      | zero => simp at hfuel
      | succ f =>
        simp only [containsLoop, hp, absL_cons, List.any_cons]
        by_cases hm : memcmp0 e xnd.element nb
        · simp [hm]
        · simp only [hm, Bool.false_or, if_false]
          rw [ih xnd.next f htl (by simp at hfuel ⊢; omega)]
          simp

theorem indexofLoop_ok {e : Elem} {nb : Nat} {h : Heap} :
    ∀ (c : List (Nat × Node)) (b : Int) (a : Option Nat) (fuel : Nat),
    Seg h a c none → idxFrom b c → c.length ≤ fuel →
    indexofLoop e nb fuel h a = some (firstMatch e nb b (absL c)) := by
  intro c
  induction c with
  | nil =>
    intro b a fuel hs _ _
    rw [hs.eq_of_nil]
    cases fuel <;> simp [indexofLoop, absL, firstMatch]
  | cons x c ih =>
    intro b a fuel hs hidx hfuel
    rcases x with ⟨xp, xnd⟩
    cases hs with
    | cons hp htl =>
      cases fuel with
      | zero => simp at hfuel
      | succ f =>
        simp only [indexofLoop, hp, absL_cons, firstMatch]
        by_cases hm : memcmp0 e xnd.element nb
        · simp only [hm, if_true]
          rw [hidx.1]
        · simp only [hm, if_false]
          exact ih (b + 1) xnd.next f htl hidx.2 (by simp at hfuel ⊢; omega)

theorem firstMatch_ne_neg_one {e : Elem} {nb : Nat} :
    ∀ (ds : List Elem) (b : Int), 0 ≤ b →
    ((ds.any fun d => memcmp0 e d nb) = true ↔ firstMatch e nb b ds ≠ -1) := by
  intro ds
  induction ds with
  | nil => intro b _; simp [firstMatch]
  | cons d ds ih =>
    intro b hb
    by_cases hm : memcmp0 e d nb
    · have h1 : firstMatch e nb b (d :: ds) = b := by simp [firstMatch, hm]
      have h2 : ((d :: ds).any fun x => memcmp0 e x nb) = true := by simp [hm]
      rw [h1, h2]
      constructor
      · intro _; omega
      · intro _; rfl
    · have h1 : firstMatch e nb b (d :: ds) = firstMatch e nb (b + 1) ds := by
        simp [firstMatch, hm]
      have h2 : ((d :: ds).any fun x => memcmp0 e x nb) = (ds.any fun x => memcmp0 e x nb) := by
        simp [hm]
      rw [h1, h2]
      exact ih (b + 1) (by omega)

/-- On a well-formed state, `ll_contains` reports whether some stored
element is byte-equal (on the first `element_size` bytes) to the probe. -/
theorem ll_contains_wf {s : St} {l : LL} {c : List (Nat × Node)} (w : Wf s l c) (e : Elem) :
    ll_contains s e =
      some (if (absL c).any (fun d => memcmp0 e d l.elemSize) then 1 else 0) := by
  simp only [ll_contains, w.lst]
  exact containsLoop_ok c l.first s.fresh w.chain w.length_le_fresh

/-- On a well-formed state, `ll_indexof` returns the first matching index. -/
theorem ll_indexof_wf {s : St} {l : LL} {c : List (Nat × Node)} (w : Wf s l c) (e : Elem) :
    ll_indexof s e = some (firstMatch e l.elemSize 0 (absL c)) := by
  simp only [ll_indexof, w.lst]
  exact indexofLoop_ok c 0 l.first s.fresh w.chain w.idx w.length_le_fresh

theorem bump_cons (d : Int) (x : Nat × Node) (c : List (Nat × Node)) :
    bump d (x :: c) = (x.1, { x.2 with index := x.2.index + d }) :: bump d c := rfl

/-- The re-index sweep adds `d` to every cached index along the chain it is
started on, touches nothing else, and preserves the chain links. -/
theorem bumpLoop_ok {d : Int} :
    ∀ (c : List (Nat × Node)) (h : Heap) (a : Option Nat) (fuel : Nat),
    Seg h a c none → (ptrs c).Nodup → c.length ≤ fuel →
    ∃ h', bumpLoop d fuel h a = some h' ∧ Seg h' a (bump d c) none ∧
      ∀ q, q ∉ ptrs c → h' q = h q := by
  intro c
  induction c with
  | nil =>
    intro h a fuel hs _ _
    rw [hs.eq_of_nil]
    refine ⟨h, ?_, Seg.nil none, fun _ _ => rfl⟩
    cases fuel <;> rfl
  | cons x c ih =>
    intro h a fuel hs hnodup hfuel
    rcases x with ⟨p, nd⟩
    cases hs with
    | cons hp htl =>
      cases fuel with
      | zero => simp at hfuel
      | succ f =>
        rw [ptrs_cons] at hnodup
        have hnd2 := List.nodup_cons.1 hnodup
        have hstep : Seg (hupd h p (some { nd with index := nd.index + d })) nd.next c none :=
          htl.frame hnd2.1 _
        rcases ih (hupd h p (some { nd with index := nd.index + d })) nd.next f hstep hnd2.2
          (by simp at hfuel ⊢; omega) with ⟨h', hrun, hseg, hframe⟩
        refine ⟨h', ?_, ?_, ?_⟩
        · simp only [bumpLoop, hp]
          exact hrun
        · rw [bump_cons]
          refine Seg.cons ?_ hseg
          rw [hframe p hnd2.1, hupd_self]
        · intro q hq
          rw [ptrs_cons] at hq
          have hq1 : q ≠ p := fun he => hq (he ▸ List.mem_cons_self _ _)
          have hq2 : q ∉ ptrs c := fun hm => hq (List.mem_cons_of_mem _ hm)
          rw [hframe q hq2, hupd_other _ _ _ hq1]

/-- The middle-insertion walk of `ll_add` finds the predecessor of the node
with cached index `i` and splices the new node in just before it. -/
theorem addLoop_found {i : Int} {newP : Nat} {newNd : Node} :
    ∀ (path : List (Nat × Node)) (h : Heap) (p q : Nat) (qnd : Node) (fuel : Nat),
    Seg h (some p) path (some q) → path ≠ [] →
    (∀ x ∈ path.tail, x.2.index ≠ i) →
    h q = some qnd → qnd.index = i →
    h newP = some newNd →
    path.length ≤ fuel →
    ∃ c₁ pr prnd, path = c₁ ++ [(pr, prnd)] ∧
      addLoop newP i fuel h p =
        some (hupd (hupd h newP (some { newNd with next := some q }))
              pr (some { prnd with next := some newP })) := by
  intro path
  induction path with
  | nil => intro h p q qnd fuel _ hne _ _ _ _ _; exact absurd rfl hne
  | cons x path ih =>
    intro h p q qnd fuel hs _ htail hq hqi hnew hfuel
    rcases x with ⟨xp, xnd⟩
    cases hs with
    | cons hp htl =>
      cases fuel with
      | zero => simp at hfuel
      | succ f =>
        cases path with
        | nil =>
          have hnx : xnd.next = some q := htl.eq_of_nil
          refine ⟨[], p, xnd, rfl, ?_⟩
          simp [addLoop, hp, hnx, hq, hqi, hnew]
        | cons y rest =>
          rcases y with ⟨yp, ynd⟩
          rcases Seg.cons_inv htl with ⟨hnx, hpy, htly⟩
          have hyne : ¬ ynd.index = i := htail (yp, ynd) (List.mem_cons_self _ _)
          rcases ih h yp q qnd f (Seg.cons hpy htly) (by simp)
            (fun z hz => htail z (List.mem_cons_of_mem _ hz)) hq hqi hnew
            (by simp at hfuel ⊢; omega) with ⟨c₁, pr, prnd, heq, hrun⟩
          refine ⟨(p, xnd) :: c₁, pr, prnd, by rw [List.cons_append, ← heq], ?_⟩
          simp only [addLoop, hp, hnx, hpy]
          rw [if_neg hyne]
          exact hrun

/-- Splitting a list at a position strictly inside it. -/
theorem exists_split_at {α : Type _} :
    ∀ (c : List α) (k : Nat), k < c.length →
    ∃ c₁ x c₂, c = c₁ ++ x :: c₂ ∧ c₁.length = k := by
  intro c
  induction c with
  | nil => intro k hk; simp at hk
  | cons a c ih =>
    intro k hk
    cases k with
    | zero => exact ⟨[], a, c, rfl, rfl⟩
    | succ k =>
      rcases ih k (by simp at hk; omega) with ⟨c₁, x, c₂, hc, hl⟩
      exact ⟨a :: c₁, x, c₂, by rw [List.cons_append, ← hc], by simp [hl]⟩

/-- What holds of the state after a successful `ll_add` at position `k`:
the new node sits at traversal position `k` of a well-formed chain and
carries element `e`. -/
def AddPost (s : St) (k : Nat) (e : Elem) (s' : St) : Prop :=
  ∃ l' c₁ nd' c₂, s'.lst = some l' ∧ Wf s' l' (c₁ ++ (s.fresh, nd') :: c₂) ∧
    c₁.length = k ∧ nd'.element = e

/-- The freshly allocated pointer is outside the current chain. -/
theorem fresh_not_mem {s : St} {l : LL} {c : List (Nat × Node)} (w : Wf s l c) :
    s.fresh ∉ ptrs c :=
  fun hm => lt_irrefl s.fresh (w.bound s.fresh hm)

/-- The state after node allocation is still well-formed on the old chain. -/
theorem alloc_wf {s : St} {l : LL} {c : List (Nat × Node)} (w : Wf s l c) (v : Node) :
    Wf { heap := hupd s.heap s.fresh (some v), fresh := s.fresh + 1, lst := some l } l c :=
  ⟨rfl, w.chain.frame (fresh_not_mem w) _, w.idx, w.lastPtr,
    fun p hp => by have := w.bound p hp; show p < s.fresh + 1; omega⟩

/-- `ll_add` on an empty well-formed list: the empty branch runs. -/
theorem ll_add_wf_empty {s : St} {l : LL} (w : Wf s l []) (e : Elem) :
    ∃ s', ll_add s 0 e = some (s', 1) ∧ AddPost s 0 e s' := by
  have hsz := ll_size_wf w
  have hw1 := alloc_wf w { element := e, index := 0, next := none }
  have hsz1 := ll_size_wf hw1
  simp only [List.length_nil, Nat.cast_zero] at hsz hsz1
  have h0 : ¬ ((0 : Int) < 0) := by omega
  refine ⟨{ heap := hupd s.heap s.fresh (some { element := e, index := 0, next := none }),
            fresh := s.fresh + 1,
            lst := some { l with first := some s.fresh, last := some s.fresh } }, ?_, ?_⟩
  · simp [ll_add, w.lst, hsz, hsz1]
  · refine ⟨{ l with first := some s.fresh, last := some s.fresh },
      [], { element := e, index := 0, next := none }, [], rfl, ?_, rfl, rfl⟩
    refine ⟨rfl, ?_, ?_, ?_, ?_⟩
    · exact Seg.cons (hupd_self _ _ _) (Seg.nil none)
    · exact ⟨rfl, trivial⟩
    · rfl
    · intro p hp
      have hps : p = s.fresh := by simpa [ptrs] using hp
      show p < s.fresh + 1
      omega

/-- `ll_add` at index `size` on a nonempty well-formed list: the append
branch runs, relinking `__last`. -/
theorem ll_add_wf_append {s : St} {l : LL} {c : List (Nat × Node)} (w : Wf s l c)
    (hne : c ≠ []) (e : Elem) :
    ∃ s', ll_add s (c.length : Int) e = some (s', 1) ∧ AddPost s c.length e s' := by
  rcases c.eq_nil_or_concat' with hc | ⟨c₀, x, hc⟩
  · exact absurd hc hne
  subst hc
  rcases x with ⟨lp, lnd⟩
  have hsz := ll_size_wf w
  have hw1 := alloc_wf w
    { element := e, index := ((c₀ ++ [(lp, lnd)]).length : Int), next := none }
  have hsz1 := ll_size_wf hw1
  have hlpmem : (lp, lnd) ∈ c₀ ++ [(lp, lnd)] := by simp
  have hlplt : lp < s.fresh := w.bound lp (mem_ptrs.2 ⟨lnd, hlpmem⟩)
  have hlp : hupd s.heap s.fresh
      (some { element := e, index := ((c₀ ++ [(lp, lnd)]).length : Int), next := none }) lp =
      some lnd := by
    rw [hupd_other _ _ _ (by omega)]
    exact w.chain.mem hlpmem
  have hlast : l.last = some lp := by
    rw [w.lastPtr, ptrs_append]
    simpa [ptrs] using lastPtrOf_concat (ptrs c₀) lp
  have hi0 : ¬ (((c₀ ++ [(lp, lnd)]).length : Int) < 0) := by omega
  have hin : ¬ (((c₀ ++ [(lp, lnd)]).length : Int) < ((c₀ ++ [(lp, lnd)]).length : Int)) := by
    omega
  have hn1 : ¬ (((c₀ ++ [(lp, lnd)]).length : Int) = 0) := by
    simp only [List.length_append, List.length_cons, List.length_nil]
    push_cast
    omega
  have hlpc0 : lp ∉ ptrs c₀ := by
    have hn := w.chainNodup
    rw [ptrs_append] at hn
    have hd := List.disjoint_of_nodup_append hn
    intro hmem
    exact hd hmem (by simp [ptrs])
  rcases w.chain.split with ⟨b, hseg0, hseg1⟩
  rcases Seg.cons_inv hseg1 with ⟨hb, hheaplp, htl0⟩
  have hlndnext : lnd.next = none := htl0.eq_of_nil
  refine ⟨{ heap := hupd (hupd s.heap s.fresh (some { element := e, index := ((c₀ ++ [(lp, lnd)]).length : Int), next := none })) lp (some { lnd with next := some s.fresh }), fresh := s.fresh + 1, lst := some { l with last := some s.fresh } }, ?_, ?_⟩
  · simp only [ll_add, w.lst, hsz, hsz1]
    rw [if_neg hi0, if_neg hin, if_neg hn1]
    simp only [if_true, hlast, hlp]
  · refine ⟨{ l with last := some s.fresh },
      c₀ ++ [(lp, { lnd with next := some s.fresh })],
      { element := e, index := ((c₀ ++ [(lp, lnd)]).length : Int), next := none },
      [], rfl, ?_, by simp, rfl⟩
    refine ⟨rfl, ?_, ?_, ?_, ?_⟩
    · show Seg _ l.first _ none
      have hagree : ∀ q ∈ ptrs c₀,
          (hupd (hupd s.heap s.fresh
            (some { element := e, index := ((c₀ ++ [(lp, lnd)]).length : Int), next := none }))
            lp (some { lnd with next := some s.fresh })) q = s.heap q := by
        intro q hq
        have hq1 : q ≠ lp := fun he => hlpc0 (he ▸ hq)
        have hq2 : q < s.fresh := w.bound q (by rw [ptrs_append]; exact List.mem_append_left _ hq)
        rw [hupd_other _ _ _ hq1, hupd_other _ _ _ (by omega)]
      have hs0 : Seg _ l.first c₀ (some lp) := hb ▸ (hseg0.heap_congr hagree)
      have hsegmid : Seg (hupd (hupd s.heap s.fresh (some { element := e, index := ((c₀ ++ [(lp, lnd)]).length : Int), next := none })) lp (some { lnd with next := some s.fresh })) (some lp)
          ((lp, { lnd with next := some s.fresh }) ::
            [(s.fresh, { element := e, index := ((c₀ ++ [(lp, lnd)]).length : Int), next := none })])
          none := by
        refine Seg.cons (hupd_self _ _ _) ?_
        refine Seg.cons ?_ (Seg.nil none)
        rw [hupd_other _ _ _ (by omega), hupd_self]
      have := hs0.append hsegmid
      simpa using this
    · have hsplit := idxFrom_append.1 w.idx
      have hlndidx : lnd.index = (c₀.length : Int) := by simpa [idxFrom] using hsplit.2.1
      refine idxFrom_append.2 ⟨idxFrom_append.2 ⟨hsplit.1, ?_⟩, ?_⟩
      · exact ⟨by simpa using hlndidx, trivial⟩
      · refine ⟨?_, trivial⟩
        simp only [List.length_append, List.length_cons, List.length_nil]
        push_cast
        ring
    · rw [ptrs_append, ptrs_append]
      show some s.fresh = lastPtrOf (_ ++ _ ++ ptrs [(s.fresh, _)])
      rw [show ∀ v : Node, ptrs [(s.fresh, v)] = [s.fresh] from fun _ => rfl]
      rw [lastPtrOf_append (by simp)]
      rfl
    · intro p hp
      rw [ptrs_append, ptrs_append] at hp
      show p < s.fresh + 1
      rcases List.mem_append.1 hp with hp1 | hp2
      · rcases List.mem_append.1 hp1 with hp3 | hp4
        · have := w.bound p (by rw [ptrs_append]; exact List.mem_append_left _ hp3)
          omega
        · have : p = lp := by simpa [ptrs] using hp4
          omega
      · have : p = s.fresh := by simpa [ptrs] using hp2
        omega

theorem lastPtrOf_cons_of_ne_nil {c : List Nat} (p : Nat) (hne : c ≠ []) :
    lastPtrOf (p :: c) = lastPtrOf c := by
  rcases List.exists_cons_of_ne_nil hne with ⟨q, tl, hq⟩
  subst hq
  rfl

theorem ptrs_ne_nil {c : List (Nat × Node)} (hne : c ≠ []) : ptrs c ≠ [] := by
  simpa [ptrs] using hne

/-- `ll_add` at index `0` on a nonempty well-formed list: the front branch
runs, then the whole old chain is re-indexed by `+1`. -/
theorem ll_add_wf_front {s : St} {l : LL} {c : List (Nat × Node)} (w : Wf s l c)
    (hne : c ≠ []) (e : Elem) :
    ∃ s', ll_add s 0 e = some (s', 1) ∧ AddPost s 0 e s' := by
  have hsz := ll_size_wf w
  have hw1 := alloc_wf w { element := e, index := 0, next := none }
  have hsz1 := ll_size_wf hw1
  have hlen : c.length ≠ 0 := fun h => hne (List.length_eq_zero.1 h)
  have hc1 : ¬ ((c.length : Int) < 0) := by omega
  have hc2 : ¬ ((c.length : Int) = 0) := by omega
  have hc3 : ¬ ((0 : Int) = (c.length : Int)) := by omega
  have hfresh := fresh_not_mem w
  have hseg2 : Seg (hupd (hupd s.heap s.fresh (some { element := e, index := 0, next := none })) s.fresh (some { element := e, index := 0, next := l.first })) l.first c none :=
    (w.chain.frame hfresh _).frame hfresh _
  rcases @bumpLoop_ok 1 c _ l.first (s.fresh + 1) hseg2 w.chainNodup
    (le_trans w.length_le_fresh (by omega)) with ⟨h3, hrun, hseg3, hframe3⟩
  have h00 : ¬ ((0 : Int) < 0) := by omega
  refine ⟨{ heap := h3, fresh := s.fresh + 1, lst := some { l with first := some s.fresh } }, ?_, ?_⟩
  · simp only [ll_add, w.lst, hsz, hsz1]
    rw [if_neg h00, if_neg hc1, if_neg hc2, if_neg hc3]
    simp only [if_true, hupd_self, hrun]
  · refine ⟨{ l with first := some s.fresh },
      [], { element := e, index := 0, next := l.first }, bump 1 c, rfl, ?_, rfl, rfl⟩
    refine ⟨rfl, ?_, ?_, ?_, ?_⟩
    · show Seg h3 (some s.fresh) _ none
      refine Seg.cons ?_ hseg3
      rw [hframe3 s.fresh hfresh, hupd_self]
    · exact ⟨rfl, by simpa using @idxFrom_bump 0 1 c w.idx⟩
    · show l.last = _
      rw [List.nil_append, ptrs_cons, ptrs_bump,
        lastPtrOf_cons_of_ne_nil _ (ptrs_ne_nil hne)]
      exact w.lastPtr
    · intro p hp
      rw [List.nil_append, ptrs_cons, ptrs_bump] at hp
      show p < s.fresh + 1
      rcases List.mem_cons.1 hp with hp1 | hp2
      · omega
      · have := w.bound p hp2
        omega

/-- `ll_add` at a middle index `0 < k < size`: the predecessor walk splices
the new node before the node with cached index `k`, then the suffix is
re-indexed by `+1`. -/
theorem ll_add_wf_middle {s : St} {l : LL} {c : List (Nat × Node)} (w : Wf s l c)
    (k : Nat) (hk0 : 0 < k) (hkn : k < c.length) (e : Elem) :
    ∃ s', ll_add s (k : Int) e = some (s', 1) ∧ AddPost s k e s' := by
  have hsz := ll_size_wf w
  have hw1 := alloc_wf w { element := e, index := (k : Int), next := none }
  have hsz1 := ll_size_wf hw1
  rcases exists_split_at c k hkn with ⟨path, t, c₂, hc, hlen⟩
  rcases t with ⟨tq, tqnd⟩
  subst hc
  have hpathne : path ≠ [] := by
    intro h
    rw [h] at hlen
    simp at hlen
    omega
  rcases List.exists_cons_of_ne_nil hpathne with ⟨z, path', hz⟩
  rcases w.chain.split with ⟨bmid, hsegPath, hsegTail⟩
  rcases Seg.cons_inv hsegTail with ⟨hbmid, hheapt, hsegc₂⟩
  rcases idxFrom_append.1 w.idx with ⟨hidxPath, hidxTail⟩
  have htqidx : tqnd.index = (k : Int) := by
    have h1 := hidxTail.1
    simp only at h1
    rw [h1, hlen]
    ring
  have hnodup := w.chainNodup
  rw [ptrs_append] at hnodup
  have hdisj := List.disjoint_of_nodup_append hnodup
  have hnodupPath := hnodup.of_append_left
  have hnodupTail := hnodup.of_append_right
  have htqlt : tq < s.fresh := w.bound tq (by rw [ptrs_append, ptrs_cons]; simp)
  have hfreshPath : s.fresh ∉ ptrs path := fun hm => (fresh_not_mem w) (by rw [ptrs_append]; exact List.mem_append_left _ hm)
  have hfreshTail : s.fresh ∉ ptrs ((tq, tqnd) :: c₂) := fun hm => (fresh_not_mem w) (by rw [ptrs_append]; exact List.mem_append_right _ hm)
  have hfirst : l.first = some z.1 := by
    rw [hz] at hsegPath
    exact (Seg.cons_inv hsegPath).1
  have hsegPath0 : Seg (hupd s.heap s.fresh (some { element := e, index := (k : Int), next := none })) (some z.1) path (some tq) := by
    rw [← hfirst]
    have h1 := hsegPath.frame hfreshPath (some { element := e, index := (k : Int), next := none })
    rwa [hbmid] at h1
  have htailidx : ∀ x ∈ path.tail, x.2.index ≠ (k : Int) := by
    intro x hx
    rw [hz] at hidxPath hx
    have hub := idxFrom_mem_ub hidxPath.2 hx
    have hlen' : path'.length + 1 = k := by
      rw [hz] at hlen
      simpa using hlen
    intro he
    rw [he] at hub
    omega
  have hq0 : hupd s.heap s.fresh (some { element := e, index := (k : Int), next := none }) tq = some tqnd := by
    rw [hupd_other _ _ _ (by omega)]
    exact hheapt
  rcases addLoop_found path _ z.1 tq tqnd (s.fresh + 1) hsegPath0 hpathne htailidx hq0 htqidx
    (hupd_self _ _ _) (by have := hlen ▸ le_trans hkn.le w.length_le_fresh; omega)
    with ⟨c₁p, pr, prnd, hpathEq, hrun2⟩
  have hprmem : (pr, prnd) ∈ path := by rw [hpathEq]; simp
  have hprlt : pr < s.fresh := w.bound pr (by rw [ptrs_append]; exact List.mem_append_left _ (mem_ptrs.2 ⟨prnd, hprmem⟩))
  have hprTail : pr ∉ ptrs ((tq, tqnd) :: c₂) := fun hm => hdisj (mem_ptrs.2 ⟨prnd, hprmem⟩) hm
  have hsegTail2 : Seg (hupd (hupd (hupd s.heap s.fresh (some { element := e, index := (k : Int), next := none })) s.fresh (some { element := e, index := (k : Int), next := some tq })) pr (some { prnd with next := some s.fresh })) (some tq) ((tq, tqnd) :: c₂) none := by
    have h1 : Seg s.heap (some tq) ((tq, tqnd) :: c₂) none := Seg.cons hheapt hsegc₂
    exact ((h1.frame hfreshTail _).frame hfreshTail _).frame hprTail _
  rcases @bumpLoop_ok 1 ((tq, tqnd) :: c₂) _ (some tq) (s.fresh + 1) hsegTail2 hnodupTail
    (by have h1 : ((tq, tqnd) :: c₂).length ≤ (path ++ (tq, tqnd) :: c₂).length := by simp
        have := le_trans h1 w.length_le_fresh
        omega)
    with ⟨h3, hrun3, hseg3, hframe3⟩
  have hh2fresh : (hupd (hupd (hupd s.heap s.fresh (some { element := e, index := (k : Int), next := none })) s.fresh (some { element := e, index := (k : Int), next := some tq })) pr (some { prnd with next := some s.fresh })) s.fresh = some { element := e, index := (k : Int), next := some tq } := by
    rw [hupd_other _ _ _ (by omega), hupd_self]
  have hc0 : ¬ ((k : Int) < 0) := by omega
  have hcn : ¬ (((path ++ (tq, tqnd) :: c₂).length : Int) < (k : Int)) := by
    simp only [List.length_append, List.length_cons]
    push_cast
    omega
  have hn1ne0 : ¬ (((path ++ (tq, tqnd) :: c₂).length : Int) = 0) := by
    simp only [List.length_append, List.length_cons]
    push_cast
    omega
  have hkne : ¬ ((k : Int) = ((path ++ (tq, tqnd) :: c₂).length : Int)) := by
    simp only [List.length_append, List.length_cons]
    push_cast
    omega
  have hkne0 : ¬ ((k : Int) = 0) := by omega
  refine ⟨{ heap := h3, fresh := s.fresh + 1, lst := some l }, ?_, ?_⟩
  · simp only [ll_add, w.lst, hsz, hsz1]
    rw [if_neg hc0, if_neg hcn, if_neg hn1ne0, if_neg hkne, if_neg hkne0]
    simp only [hfirst, hrun2, hh2fresh, hrun3]
  · have hlenc₁ : (c₁p ++ [(pr, { prnd with next := some s.fresh })]).length = k := by
      have h1 : (c₁p ++ [(pr, { prnd with next := some s.fresh })]).length = path.length := by
        rw [hpathEq]
        simp
      rw [h1, hlen]
    refine ⟨l, c₁p ++ [(pr, { prnd with next := some s.fresh })],
      { element := e, index := (k : Int), next := some tq },
      bump 1 ((tq, tqnd) :: c₂), rfl, ?_, hlenc₁, rfl⟩
    have hpx : Seg s.heap l.first (c₁p ++ [(pr, prnd)]) (some tq) := by
      rw [← hpathEq]
      have h1 := hsegPath
      rwa [hbmid] at h1
    rcases hpx.split with ⟨b2, hsegFront, hsegPr⟩
    rcases Seg.cons_inv hsegPr with ⟨hb2, hheapPr, hsegNil⟩
    have hnodupPath' : (ptrs (c₁p ++ [(pr, prnd)])).Nodup := by
      rw [← hpathEq]
      exact hnodupPath
    have hprFront : pr ∉ ptrs c₁p := by
      rw [ptrs_append] at hnodupPath'
      have hd2 := List.disjoint_of_nodup_append hnodupPath'
      intro hm
      exact hd2 hm (by simp [ptrs])
    have hagree : ∀ q ∈ ptrs c₁p, h3 q = s.heap q := by
      intro q hq
      have hqpath : q ∈ ptrs path := by
        rw [hpathEq, ptrs_append]
        exact List.mem_append_left _ hq
      have hqTail : q ∉ ptrs ((tq, tqnd) :: c₂) := fun hm => hdisj hqpath hm
      have hqfresh : q < s.fresh := w.bound q (by rw [ptrs_append]; exact List.mem_append_left _ hqpath)
      have hqpr : q ≠ pr := fun he => hprFront (he ▸ hq)
      rw [hframe3 q hqTail, hupd_other _ _ _ hqpr, hupd_other _ _ _ (by omega),
        hupd_other _ _ _ (by omega)]
    have hsegFront3 : Seg h3 l.first c₁p (some pr) := by
      have h1 := hsegFront.heap_congr hagree
      rwa [hb2] at h1
    have hh3pr : h3 pr = some { prnd with next := some s.fresh } := by
      rw [hframe3 pr hprTail, hupd_self]
    have hh3fresh : h3 s.fresh = some { element := e, index := (k : Int), next := some tq } := by
      rw [hframe3 s.fresh hfreshTail]
      exact hh2fresh
    have hfin : Seg h3 l.first
        (c₁p ++ (pr, { prnd with next := some s.fresh }) ::
          (s.fresh, { element := e, index := (k : Int), next := some tq }) ::
          bump 1 ((tq, tqnd) :: c₂)) none :=
      hsegFront3.append (Seg.cons hh3pr (Seg.cons hh3fresh hseg3))
    refine ⟨rfl, ?_, ?_, ?_, ?_⟩
    · show Seg h3 l.first _ none
      simpa [List.append_assoc] using hfin
    · have hidxPath' : idxFrom 0 (c₁p ++ [(pr, prnd)]) := by
        rw [← hpathEq]
        exact hidxPath
      have hidxPr' : idxFrom 0 (c₁p ++ [(pr, { prnd with next := some s.fresh })]) :=
        idxFrom_replace hidxPath' rfl
      refine idxFrom_append.2 ⟨hidxPr', ?_⟩
      have h1 := @idxFrom_bump (0 + (path.length : Int)) 1 ((tq, tqnd) :: c₂) hidxTail
      refine ⟨?_, ?_⟩
      · show (k : Int) = 0 + ((c₁p ++ [(pr, { prnd with next := some s.fresh })]).length : Int)
        rw [hlenc₁]
        ring
      · have hba : 0 + ((c₁p ++ [(pr, { prnd with next := some s.fresh })]).length : Int) + 1 =
            0 + (path.length : Int) + 1 := by
          rw [hlenc₁, hlen]
        rw [hba]
        exact h1
    · show l.last = _
      have hL : lastPtrOf (ptrs (path ++ (tq, tqnd) :: c₂)) = lastPtrOf (tq :: ptrs c₂) := by
        rw [ptrs_append, lastPtrOf_append (ptrs_ne_nil (by simp)), ptrs_cons]
      have hR : lastPtrOf (ptrs ((c₁p ++ [(pr, { prnd with next := some s.fresh })]) ++
          (s.fresh, { element := e, index := (k : Int), next := some tq }) ::
          bump 1 ((tq, tqnd) :: c₂))) = lastPtrOf (tq :: ptrs c₂) := by
        rw [ptrs_append, lastPtrOf_append (ptrs_ne_nil (by simp)), ptrs_cons, ptrs_bump,
          ptrs_cons, lastPtrOf_cons_cons]
      rw [w.lastPtr]
      exact hL.trans hR.symm
    · intro p hp
      show p < s.fresh + 1
      rw [ptrs_append, ptrs_cons, ptrs_bump] at hp
      have hpp : ptrs (c₁p ++ [(pr, { prnd with next := some s.fresh })]) = ptrs path := by
        rw [hpathEq, ptrs_append, ptrs_append]
        rfl
      rcases List.mem_append.1 hp with hp1 | hp2
      · rw [hpp] at hp1
        have := w.bound p (by rw [ptrs_append]; exact List.mem_append_left _ hp1)
        omega
      · rcases List.mem_cons.1 hp2 with hp3 | hp4
        · omega
        · have := w.bound p (by rw [ptrs_append]; exact List.mem_append_right _ hp4)
          omega

/-- On a well-formed list, `ll_add` at any position `k ≤ size` succeeds and
produces a well-formed list with the new node at traversal position `k`. -/
theorem ll_add_wf {s : St} {l : LL} {c : List (Nat × Node)} (w : Wf s l c) (k : Nat)
    (hk : k ≤ c.length) (e : Elem) :
    ∃ s', ll_add s (k : Int) e = some (s', 1) ∧ AddPost s k e s' := by
  rcases Nat.eq_zero_or_pos k with hk0 | hk0
  · subst hk0
    rcases eq_or_ne c [] with hc | hc
    · subst hc
      simpa using ll_add_wf_empty w e
    · simpa using ll_add_wf_front w hc e
  · rcases eq_or_ne k c.length with hkk | hkk
    · subst hkk
      refine ll_add_wf_append w ?_ e
      intro h
      rw [h] at hk0
      simp at hk0
    · exact ll_add_wf_middle w k hk0 (lt_of_le_of_ne hk hkk) e

/-- C5: on every valid list `ll_size` returns the number of nodes of the
chain (the last node's cached index plus one when nonempty, `0` when empty,
as `ll_size_wf` computes), and `ll_size` of a `NULL` list returns `-1`. -/
theorem c5_size_spec :
    (∀ s : St, s.lst = none → ll_size s = some (-1)) ∧
    (∀ (s : St) (l : LL) (c : List (Nat × Node)), Wf s l c →
      ll_size s = some (c.length : Int)) :=
  ⟨fun s hs => by simp [ll_size, hs], fun _ _ _ w => ll_size_wf w⟩

/-- C6: on every valid list and index `0 ≤ i ≤ size`, `ll_add(list, i, e)`
returns `1` and an immediately following `ll_get(list, i)` returns exactly
the inserted element `e`. -/
theorem c6_add_then_get {s : St} {l : LL} {c : List (Nat × Node)} (w : Wf s l c)
    (i : Int) (h0 : 0 ≤ i) (hi : i ≤ (c.length : Int)) (e : Elem) :
    ∃ s', ll_add s i e = some (s', 1) ∧ ll_get s' i = some (some e) := by
  obtain ⟨k, rfl⟩ : ∃ k : Nat, i = (k : Int) := ⟨i.toNat, (Int.toNat_of_nonneg h0).symm⟩
  rcases ll_add_wf w k (by exact_mod_cast hi) e with
    ⟨s', hadd, l', c₁, nd', c₂, hlst, hwf, hlen, hel⟩
  refine ⟨s', hadd, ?_⟩
  have hg := ll_get_wf hwf rfl
  rw [hlen, hel] at hg
  exact hg

/-- C7: on every valid list, `ll_set` at any traversal position returns the
element previously stored there (the one `ll_get` returned), and a
subsequent `ll_get` returns the new element. -/
theorem c7_set_roundtrip {s : St} {l : LL} {c c₁ c₂ : List (Nat × Node)} {p : Nat}
    {nd : Node} (w : Wf s l c) (hc : c = c₁ ++ (p, nd) :: c₂) (e₂ : Elem) :
    ∃ s', ll_set s (c₁.length : Int) e₂ = some (s', some nd.element) ∧
      ll_get s (c₁.length : Int) = some (some nd.element) ∧
      ll_get s' (c₁.length : Int) = some (some e₂) := by
  rcases ll_set_wf w hc e₂ with ⟨hset, hwf⟩
  refine ⟨_, hset, ll_get_wf w hc, ?_⟩
  simpa using ll_get_wf hwf rfl

/-- On a well-formed list, `ll_get` outside `[0, size)` returns `NULL`. -/
theorem ll_get_oob {s : St} {l : LL} {c : List (Nat × Node)} (w : Wf s l c) {i : Int}
    (h : i < 0 ∨ (c.length : Int) ≤ i) : ll_get s i = some none := by
  simp only [ll_get, w.lst, ll_size_wf w]
  rcases h with h | h
  · rw [if_pos h]
  · rw [if_neg (by omega), if_pos h]

/-- Replacing the entry at one split position leaves every other split
position intact. -/
theorem split_ne {α : Type _} :
    ∀ (d₁ c₁ : List α) (y x x' : α) (d₂ c₂ : List α),
    c₁ ++ x :: c₂ = d₁ ++ y :: d₂ → c₁.length ≠ d₁.length →
    ∃ e₁ e₂, e₁.length = d₁.length ∧ c₁ ++ x' :: c₂ = e₁ ++ y :: e₂ := by
  intro d₁
  induction d₁ with
  | nil =>
    intro c₁ y x x' d₂ c₂ heq hne
    cases c₁ with
    | nil => simp at hne
    | cons a c₁ =>
      rw [List.cons_append] at heq
      cases heq
      exact ⟨[], c₁ ++ x' :: c₂, rfl, rfl⟩
  | cons z d₁ ih =>
    intro c₁ y x x' d₂ c₂ heq hne
    cases c₁ with
    | nil =>
      rw [List.nil_append] at heq
      cases heq
      exact ⟨x' :: d₁, d₂, by simp, rfl⟩
    | cons a c₁ =>
      rw [List.cons_append, List.cons_append] at heq
      injection heq with h1 h2
      subst h1
      rcases ih c₁ y x x' d₂ c₂ h2 (by simpa using hne) with ⟨e₁, e₂, hl, he⟩
      exact ⟨a :: e₁, e₂, by simp [hl], by rw [List.cons_append, he, List.cons_append]⟩

/-- C10: `ll_set` at position `c₁.length` changes only that node's element
slot: the list header (hence `first`/`last`), the allocation counter, the
reported size, every other heap cell (hence every cached index and link),
and `ll_get` at every other index are unchanged. -/
theorem c10_set_frame {s : St} {l : LL} {c c₁ c₂ : List (Nat × Node)} {p : Nat}
    {nd : Node} (w : Wf s l c) (hc : c = c₁ ++ (p, nd) :: c₂) (e : Elem) :
    ∃ s', ll_set s (c₁.length : Int) e = some (s', some nd.element) ∧
      s'.lst = s.lst ∧ s'.fresh = s.fresh ∧
      ll_size s' = ll_size s ∧
      s'.heap p = some { nd with element := e } ∧
      (∀ q, q ≠ p → s'.heap q = s.heap q) ∧
      (∀ j : Int, j ≠ (c₁.length : Int) → ll_get s' j = ll_get s j) := by
  rcases ll_set_wf w hc e with ⟨hset, hwf⟩
  have hclen : (c₁ ++ (p, { nd with element := e }) :: c₂).length = c.length := by
    rw [hc]
    simp
  refine ⟨_, hset, rfl, rfl, ?_, hupd_self _ _ _, fun q hq => hupd_other _ _ _ hq, ?_⟩
  · rw [ll_size_wf hwf, ll_size_wf w, hclen]
  · intro j hj
    by_cases hin : 0 ≤ j ∧ j < (c.length : Int)
    · obtain ⟨k, rfl⟩ : ∃ k : Nat, j = (k : Int) := ⟨j.toNat, (Int.toNat_of_nonneg hin.1).symm⟩
      have hk : k < c.length := by exact_mod_cast hin.2
      rcases exists_split_at c k hk with ⟨d₁, y, d₂, hcd, hdl⟩
      rcases y with ⟨yq, ynd⟩
      have hlne : c₁.length ≠ d₁.length := by
        intro he
        apply hj
        rw [← hdl, he]
      rcases split_ne d₁ c₁ (yq, ynd) (p, nd) (p, { nd with element := e }) d₂ c₂
        (by rw [← hc, ← hcd]) hlne with ⟨e₁, e₂, hel, hee⟩
      have hg1 : ll_get s ((d₁.length : Nat) : Int) = some (some ynd.element) :=
        ll_get_wf w hcd
      have hg2 : ll_get _ ((e₁.length : Nat) : Int) = some (some ynd.element) :=
        ll_get_wf hwf hee
      rw [hel] at hg2
      rw [hdl] at hg1 hg2
      rw [hg1, hg2]
    · have hout : j < 0 ∨ (c.length : Int) ≤ j := by omega
      have ho1 := ll_get_oob w hout
      have ho2 := ll_get_oob hwf (by rw [hclen]; exact hout)
      rw [ho1, ho2]

/-- C8: `ll_contains` returns `1` exactly when some stored element is
byte-equal to the probe on the first `element_size` bytes (and `0`
otherwise, also for a `NULL` list); `ll_indexof` returns the first matching
cached index (`firstMatch` counts from `0`) or `-1`; consequently
`ll_contains` is `1` exactly when `ll_indexof` is not `-1`. -/
theorem c8_contains_indexof :
    (∀ (s : St) (e : Elem), s.lst = none →
      ll_contains s e = some 0 ∧ ll_indexof s e = some (-1)) ∧
    (∀ (s : St) (l : LL) (c : List (Nat × Node)) (e : Elem), Wf s l c →
      (ll_contains s e = some 1 ↔ ∃ d ∈ absL c, memcmp0 e d l.elemSize) ∧
      (ll_contains s e = some 1 ∨ ll_contains s e = some 0) ∧
      ll_indexof s e = some (firstMatch e l.elemSize 0 (absL c)) ∧
      (ll_contains s e = some 1 ↔ ll_indexof s e ≠ some (-1))) := by
  constructor
  · intro s e hs
    exact ⟨by simp [ll_contains, hs], by simp [ll_indexof, hs]⟩
  · intro s l c e w
    have hcont := ll_contains_wf w e
    have hidx := ll_indexof_wf w e
    have hiff := @firstMatch_ne_neg_one e l.elemSize (absL c) 0 (by omega)
    by_cases hany : (absL c).any (fun d => memcmp0 e d l.elemSize)
    · rw [if_pos hany] at hcont
      refine ⟨?_, Or.inl hcont, hidx, ?_⟩
      · simp only [hcont, true_iff]
        simpa using List.any_eq_true.1 hany
      · simp only [hcont, hidx, true_iff]
        intro he
        injection he with he2
        exact (hiff.1 hany) he2
    · rw [if_neg hany] at hcont
      refine ⟨?_, Or.inr hcont, hidx, ?_⟩
      · rw [hcont]
        constructor
        · intro h
          injection h with h2
          cases h2
        · intro h
          exact absurd (List.any_eq_true.2 (by simpa using h)) hany
      · rw [hcont, hidx]
        constructor
        · intro h
          injection h with h2
          cases h2
        · intro h
          exfalso
          apply h
          congr 1
          by_contra h3
          exact hany (hiff.2 h3)

/-- C9: every public list operation called with a `NULL` list reference
short-circuits on the initial `NULL` check, returns its sentinel value, and
performs no mutation (the returned state is the input state, so repeated
calls return the same sentinel). -/
theorem c9_null_list_sentinels (s : St) (h : s.lst = none) (i : Int) (e : Elem) :
    ll_size s = some (-1) ∧
    ll_add s i e = some (s, 0) ∧
    ll_addfirst s e = some s ∧
    ll_addlast s e = some s ∧
    ll_get s i = some none ∧
    ll_first s = some none ∧
    ll_last s = some none ∧
    ll_contains s e = some 0 ∧
    ll_indexof s e = some (-1) ∧
    ll_remove s i = some (s, none) ∧
    ll_set s i e = some (s, none) ∧
    ll_clear s = some s ∧
    ll_itr s i = some none := by
  refine ⟨by simp [ll_size, h], by simp [ll_add, h], by simp [ll_addfirst, ll_add, h],
    by simp [ll_addlast, ll_size, ll_add, h], by simp [ll_get, h],
    by simp [ll_first, ll_get, h], by simp [ll_last, ll_size, ll_get, h],
    by simp [ll_contains, h], by simp [ll_indexof, h], by simp [ll_remove, h],
    by simp [ll_set, h], by simp [ll_clear, h], by simp [ll_itr, h]⟩

/-- C3: when the iterator cursor references the final unread node (a live
node whose successor is `NULL`), `li_hasnext` answers `0` even though
`li_next` in the same state still yields that node's element: the loop
`while has_next do next` therefore never consumes the last element. -/
theorem c3_hasnext_off_by_one (s : St) (p : Nat) (nd : Node) (hp : s.heap p = some nd)
    (hlast : nd.next = none) :
    li_hasnext s (some { next := some p }) = some 0 ∧
    li_next s (some { next := some p }) = some (some { next := none }, some nd.element) := by
  constructor
  · simp [li_hasnext, hp, hlast]
  · simp [li_next, hp, hlast]

/-- C4: a reachable program state in which `li_hasnext` dereferences a
`NULL` cursor: create a one-element list, take an iterator on it, consume
the single element with `li_next` (leaving the cursor `NULL`), then call
`li_hasnext`; the model yields `none` (undefined behavior), because the
guard in `li_hasnext` checks only the iterator handle, not the cursor. -/
theorem c4_hasnext_null_deref_reachable :
    ∃ (s : St) (it it' : Itr) (e : Elem),
      ll_addfirst (ll_init 4) [1, 2, 3, 4] = some s ∧
      ll_itr s 0 = some (some it) ∧
      li_next s (some it) = some (some it', some e) ∧
      it'.next = none ∧
      li_hasnext s (some it') = none := by
  exact ⟨_, _, _, _, rfl, rfl, rfl, rfl, rfl⟩

/-- C1 (code bug): the claimed invariant is not preserved by `ll_remove`.
Reachable failing input: a two-element list built with `ll_addlast`, then
`ll_remove` at index `1` (the last index).  The non-front removal branch of
the C source never updates `list->__last`, so afterwards `__last` references
the freed node (`Corrupt`), no chain can witness well-formedness (`NoWf`),
and even `ll_size` is undefined behavior (`none`) instead of `1`. -/
theorem c1_remove_last_breaks_invariant :
    ∃ (s1 s2 : St) (r : St × Option Elem),
      ll_addlast (ll_init 1) [10] = some s1 ∧
      ll_addlast s1 [20] = some s2 ∧
      ll_size s2 = some 2 ∧
      ll_remove s2 1 = some r ∧
      r.2 = some [20] ∧
      Corrupt r.1 ∧
      NoWf r.1 ∧
      ll_size r.1 = none := by
  refine ⟨_, _, _, rfl, rfl, rfl, rfl, rfl, ⟨_, 1, rfl, rfl, rfl⟩, ?_, rfl⟩
  intro l c hw
  exact hw.not_corrupt ⟨_, 1, rfl, rfl, rfl⟩

/-- C2 (code bug): `ll_remove` at the last index of a two-element list
returns the element previously stored there, but `ll_size` does not
decrease by one: the stale `__last` pointer makes the subsequent `ll_size`
(and hence any `ll_get`, whose bound check calls `ll_size`) undefined
behavior (`none`) instead of `some 1`. -/
theorem c2_remove_size_not_decremented :
    ∃ (s1 s2 : St) (r : St × Option Elem),
      ll_addlast (ll_init 1) [3] = some s1 ∧
      ll_addlast s1 [4] = some s2 ∧
      ll_size s2 = some 2 ∧
      ll_remove s2 1 = some r ∧
      r.2 = some [4] ∧
      ll_size r.1 = none ∧
      ll_get r.1 0 = none := by
  exact ⟨_, _, _, rfl, rfl, rfl, rfl, rfl, rfl, rfl⟩

/-- A concrete one-byte-element list heap: node `0` holds `[1]`, node `1`
holds `[2]`. -/
def heapAB : Heap := fun p =>
  if p = 0 then some { element := [1], index := 0, next := some 1 }
  else if p = 1 then some { element := [2], index := 1, next := none }
  else none

/-- Header of the concrete two-element list. -/
def listAB : LL := { first := some 0, last := some 1, elemSize := 1 }

/-- The concrete two-element list state. -/
def stAB : St := { heap := heapAB, fresh := 2, lst := some listAB }

/-- The chain of `stAB`. -/
def chainAB : List (Nat × Node) :=
  [(0, { element := [1], index := 0, next := some 1 }),
   (1, { element := [2], index := 1, next := none })]

/-- `stAB` is well-formed. -/
theorem wf_stAB : Wf stAB listAB chainAB := by
  refine ⟨rfl, ?_, ?_, rfl, ?_⟩
  · exact Seg.cons rfl (Seg.cons rfl (Seg.nil none))
  · exact ⟨rfl, rfl, trivial⟩
  · intro p hp
    have : p = 0 ∨ p = 1 := by simpa [ptrs, chainAB] using hp
    rcases this with rfl | rfl <;> decide

/-- A concrete `NULL`-list state. -/
def stNull : St := { heap := fun _ => none, fresh := 0, lst := none }

/-- Witness for C5 at concrete inputs. -/
theorem c5_size_spec_witness :
    ll_size stNull = some (-1) ∧ ll_size stAB = some 2 := by
  constructor
  · exact c5_size_spec.1 stNull rfl
  · have h := c5_size_spec.2 stAB listAB chainAB wf_stAB
    simpa [chainAB] using h

/-- Witness for C6 at concrete inputs. -/
theorem c6_add_then_get_witness :
    ∃ s', ll_add stAB 1 [9] = some (s', 1) ∧ ll_get s' 1 = some (some [9]) := by
  have h := c6_add_then_get wf_stAB 1 (by decide) (by decide) [9]
  exact h

/-- Witness for C7 at concrete inputs. -/
theorem c7_set_roundtrip_witness :
    ∃ s', ll_set stAB 1 [7] = some (s', some [2]) ∧
      ll_get stAB 1 = some (some [2]) ∧ ll_get s' 1 = some (some [7]) := by
  have h := c7_set_roundtrip wf_stAB (show chainAB = [(0, { element := [1], index := 0, next := some 1 })] ++ (1, { element := [2], index := 1, next := none }) :: [] from rfl) [7]
  simpa using h

/-- Witness for C8 at concrete inputs. -/
theorem c8_contains_indexof_witness :
    (ll_contains stNull [2] = some 0 ∧ ll_indexof stNull [2] = some (-1)) ∧
    ll_contains stAB [2] = some 1 ∧ ll_indexof stAB [2] = some 1 ∧
    ll_contains stAB [9] = some 0 ∧ ll_indexof stAB [9] = some (-1) := by
  have hnull := c8_contains_indexof.1 stNull [2] rfl
  have h2 := c8_contains_indexof.2 stAB listAB chainAB [2] wf_stAB
  have h9 := c8_contains_indexof.2 stAB listAB chainAB [9] wf_stAB
  refine ⟨hnull, ?_, ?_, ?_, ?_⟩
  · exact h2.1.2 (by decide)
  · rw [h2.2.2.1]
    decide
  · rcases h9.2.1 with h | h
    · exfalso
      have := h9.1.1 h
      revert this
      decide
    · exact h
  · rw [h9.2.2.1]
    decide

/-- Witness for C9 at concrete inputs. -/
theorem c9_null_list_sentinels_witness :
    ll_size stNull = some (-1) ∧
    ll_add stNull 0 [] = some (stNull, 0) ∧
    ll_addfirst stNull [] = some stNull ∧
    ll_addlast stNull [] = some stNull ∧
    ll_get stNull 0 = some none ∧
    ll_first stNull = some none ∧
    ll_last stNull = some none ∧
    ll_contains stNull [] = some 0 ∧
    ll_indexof stNull [] = some (-1) ∧
    ll_remove stNull 0 = some (stNull, none) ∧
    ll_set stNull 0 [] = some (stNull, none) ∧
    ll_clear stNull = some stNull ∧
    ll_itr stNull 0 = some none :=
  c9_null_list_sentinels stNull rfl 0 []

/-- Witness for C3 at concrete inputs: the cursor of `stAB` positioned on
the final node `1`. -/
theorem c3_hasnext_off_by_one_witness :
    li_hasnext stAB (some { next := some 1 }) = some 0 ∧
    li_next stAB (some { next := some 1 }) =
      some (some { next := none }, some [2]) := by
  have h := c3_hasnext_off_by_one stAB 1 { element := [2], index := 1, next := none } rfl rfl
  simpa using h

/-- Witness for C10 at concrete inputs. -/
theorem c10_set_frame_witness :
    ∃ s', ll_set stAB 1 [7] = some (s', some [2]) ∧
      s'.lst = stAB.lst ∧ s'.fresh = stAB.fresh ∧
      ll_size s' = ll_size stAB ∧
      (∀ q, q ≠ 1 → s'.heap q = stAB.heap q) ∧
      ll_get s' 0 = ll_get stAB 0 := by
  rcases c10_set_frame wf_stAB (show chainAB = [(0, { element := [1], index := 0, next := some 1 })] ++ (1, { element := [2], index := 1, next := none }) :: [] from rfl) [7] with
    ⟨s', h1, h2, h3, h4, _h5, h6, h7⟩
  exact ⟨s', by simpa using h1, h2, h3, h4, h6, h7 0 (by decide)⟩
